import Mathlib

/-!
Shallow embedding of the interfacial-segment module (`Interface.cpp` of the
particle-packing generator).  A segment owns a set of lattice points and an
axis-aligned bounding box stored as six `uint32_t` components; operations are
`addPoint` (insert the 18-connected dilation of a point and widen the box),
`mergeBbox`, `withinBbox`, `contains`, and `mergeSegments` (absorb other
segments and retire them from a registry).  Signed `int` coordinates are
modelled as `Int`; the `static_cast<uint32_t>` conversions are modelled as
reduction modulo 2^32 yielding a `Nat`.
-/

namespace Packing

/-- `UINT32_MAX`, the largest value of a `uint32_t` component. -/
def UINT32_MAX : Nat := 4294967295

/-- `static_cast<uint32_t>(v)` for a signed value `v`: reduction mod 2^32. -/
def toU32 (v : Int) : Nat := (v % (4294967296 : Int)).toNat

/-- A lattice point: `Point3D` with three signed integer coordinates. -/
structure Point3D where
  x : Int
  y : Int
  z : Int
deriving DecidableEq

/-- Translation of a point by an offset, as built inside the `addPoint` loop:
`Point3D(point.x + dx[i], point.y + dy[i], point.z + dz[i])`. -/
def Point3D.offset (p d : Point3D) : Point3D :=
  ⟨p.x + d.x, p.y + d.y, p.z + d.z⟩

/-- The bounding box `std::array<uint32_t, 6>`, components named
`(minX, minY, minZ, maxX, maxY, maxZ)` as in the spec. -/
structure BoundingBox where
  minX : Nat
  minY : Nat
  minZ : Nat
  maxX : Nat
  maxY : Nat
  maxZ : Nat
deriving DecidableEq

/-- The sentinel box the constructor writes:
`bbox = {UINT32_MAX, UINT32_MAX, UINT32_MAX, 0, 0, 0}`. -/
def emptyBbox : BoundingBox :=
  ⟨UINT32_MAX, UINT32_MAX, UINT32_MAX, 0, 0, 0⟩

/-- `Interface::mergeBbox(otherBbox)`: each min component becomes
`min(otherBbox[i], bbox[i])`, each max component `max(otherBbox[i], bbox[i])`.
`self` is the current `bbox`, `other` the argument. -/
def mergeBbox (self other : BoundingBox) : BoundingBox :=
  ⟨min other.minX self.minX, min other.minY self.minY, min other.minZ self.minZ,
   max other.maxX self.maxX, max other.maxY self.maxY, max other.maxZ self.maxZ⟩

/-- An interfacial segment: the `Interface` class.  `segment` is the
`std::unordered_set<Point3D>`, `bbox` the six-component box. -/
structure Interface where
  id : Int
  segment : Finset Point3D
  bbox : BoundingBox
deriving DecidableEq

/-- The constructor `Interface::Interface(int id)`: empty point set,
sentinel bounding box. -/
def Interface.new (id : Int) : Interface :=
  ⟨id, ∅, emptyBbox⟩

/-- The 19 dilation offsets of `addPoint`, read off the `dx`, `dy`, `dz`
arrays index by index:
`dx = {0,-1,1,0,0,0,0,-1,-1,1,1,-1,-1,1,1,0,0,0,0}`,
`dy = {0,0,0,-1,1,0,0,-1,1,-1,1,0,0,0,0,-1,-1,1,1}`,
`dz = {0,0,0,0,0,-1,1,0,0,0,0,-1,1,-1,1,-1,1,-1,1}`. -/
def dilationOffsets : List Point3D :=
  [⟨0, 0, 0⟩,
   ⟨-1, 0, 0⟩, ⟨1, 0, 0⟩, ⟨0, -1, 0⟩, ⟨0, 1, 0⟩, ⟨0, 0, -1⟩, ⟨0, 0, 1⟩,
   ⟨-1, -1, 0⟩, ⟨-1, 1, 0⟩, ⟨1, -1, 0⟩, ⟨1, 1, 0⟩,
   ⟨-1, 0, -1⟩, ⟨-1, 0, 1⟩, ⟨1, 0, -1⟩, ⟨1, 0, 1⟩,
   ⟨0, -1, -1⟩, ⟨0, -1, 1⟩, ⟨0, 1, -1⟩, ⟨0, 1, 1⟩]

/-- The 8 corner (full-diagonal) offsets, which `addPoint` must NOT insert.
Not present in the source; listed here only to state the spec's claims. -/
def cornerOffsets : List Point3D :=
  [⟨-1, -1, -1⟩, ⟨-1, -1, 1⟩, ⟨-1, 1, -1⟩, ⟨-1, 1, 1⟩,
   ⟨1, -1, -1⟩, ⟨1, -1, 1⟩, ⟨1, 1, -1⟩, ⟨1, 1, 1⟩]

/-- The per-point candidate box of `addPoint`:
`{(uint32_t)(x-1), (uint32_t)(y-1), (uint32_t)(z-1),
  (uint32_t)(x+1), (uint32_t)(y+1), (uint32_t)(z+1)}`. -/
def pointBbox (p : Point3D) : BoundingBox :=
  ⟨toU32 (p.x - 1), toU32 (p.y - 1), toU32 (p.z - 1),
   toU32 (p.x + 1), toU32 (p.y + 1), toU32 (p.z + 1)⟩

/-- `Interface::addPoint`: insert the point and its 18-connected dilation
neighborhood (the loop of 19 `segment.insert` calls, i.e. union with the
mapped offset list), then `mergeBbox(pointBbox)`. -/
def Interface.addPoint (s : Interface) (p : Point3D) : Interface :=
  { s with
    segment := s.segment ∪ (dilationOffsets.map fun d => p.offset d).toFinset
    bbox := mergeBbox s.bbox (pointBbox p) }

/-- `Interface::withinBbox`: all six strict comparisons of the point's
coordinates, cast to `uint32_t`, against the box components. -/
def Interface.withinBbox (s : Interface) (p : Point3D) : Bool :=
  decide (toU32 p.x > s.bbox.minX ∧ toU32 p.y > s.bbox.minY ∧
          toU32 p.z > s.bbox.minZ ∧ toU32 p.x < s.bbox.maxX ∧
          toU32 p.y < s.bbox.maxY ∧ toU32 p.z < s.bbox.maxZ)

/-- `Interface::contains`: exact membership in the point set. -/
def Interface.contains (s : Interface) (p : Point3D) : Bool :=
  decide (p ∈ s.segment)

/-- The global registry `std::unordered_map<int, std::shared_ptr<Interface>>`,
modelled as an association list from segment id to an abstract handle
(a heap address, see `Heap` below). -/
abbrev Registry : Type := List (Int × Nat)

/-- `interfacialSegments.erase(id)`: drop the entry keyed by `id`. -/
def regErase (reg : Registry) (i : Int) : Registry :=
  reg.filter fun kv => decide (kv.1 ≠ i)

/-- Lookup in the registry, for stating what `erase` did. -/
def regLookup (reg : Registry) (i : Int) : Option Nat :=
  (reg.find? fun kv => decide (kv.1 = i)).map Prod.snd

/-- The body of the `mergeSegments` loop for one non-self segment:
insert every point of `t.segment` into `s.segment` and merge `t.bbox`
into `s.bbox`. -/
def Interface.absorb (s t : Interface) : Interface :=
  { s with
    segment := s.segment ∪ t.segment
    bbox := mergeBbox s.bbox t.bbox }

/-- The iterator loop of `Interface::mergeSegments`: walk the list, skip
entries whose id equals `s.id`, otherwise absorb the entry and erase its id
from the registry. -/
def mergeLoop : Interface → Registry → List Interface → Interface × Registry
  | s, reg, [] => (s, reg)
  | s, reg, t :: rest =>
    if t.id = s.id then mergeLoop s reg rest
    else mergeLoop (s.absorb t) (regErase reg t.id) rest

/-- `Interface::mergeSegments`: return false on an empty input vector,
otherwise run the loop and return true. -/
def Interface.mergeSegments (s : Interface) (l : List Interface)
    (reg : Registry) : Interface × Registry × Bool :=
  if l.isEmpty then (s, reg, false)
  else
    let r := mergeLoop s reg l
    (r.1, r.2, true)

/-- A heap of `Interface` objects indexed by address, to model the
`shared_ptr` aliasing of `mergeSegments` (the vector holds pointers; only
the object behind `this` is ever written). -/
abbrev Heap : Type := Nat → Interface

/-- Writing one heap cell. -/
def heapUpdate (H : Heap) (a : Nat) (v : Interface) : Heap :=
  fun b => if b = a then v else H b

/-- The `mergeSegments` loop at heap level: `a` is the address of `this`;
each iteration dereferences the current heap, skips entries whose id equals
`(H a).id`, and otherwise writes the absorbed result back to address `a`
and erases the entry's id from the registry. -/
def heapMergeLoop (a : Nat) : Heap → Registry → List Nat → Heap × Registry
  | H, reg, [] => (H, reg)
  | H, reg, b :: rest =>
    if (H b).id = (H a).id then heapMergeLoop a H reg rest
    else heapMergeLoop a (heapUpdate H a ((H a).absorb (H b)))
      (regErase reg (H b).id) rest

/-- `Interface::mergeSegments` at heap level. -/
def heapMergeSegments (a : Nat) (H : Heap) (l : List Nat)
    (reg : Registry) : Heap × Registry × Bool :=
  if l.isEmpty then (H, reg, false)
  else
    let r := heapMergeLoop a H reg l
    (r.1, r.2, true)

/-- Coordinates for which the `uint32_t` casts of `addPoint` cannot wrap:
`x - 1` and `x + 1` both lie in `[0, 2^32)`, likewise for `y` and `z`. -/
def GoodPt (p : Point3D) : Prop :=
  1 ≤ p.x ∧ p.x ≤ 4294967294 ∧ 1 ≤ p.y ∧ p.y ≤ 4294967294 ∧
  1 ≤ p.z ∧ p.z ≤ 4294967294

instance (p : Point3D) : Decidable (GoodPt p) := by
  unfold GoodPt; infer_instance

/-- Segments reachable from a fresh `Interface(id)` by `addPoint` calls on
wrap-free coordinates and by `mergeSegments` calls among reachable
segments. -/
inductive Reached : Interface → Prop
  | new (id : Int) : Reached (Interface.new id)
  | add {s : Interface} {p : Point3D} : Reached s → GoodPt p →
      Reached (s.addPoint p)
  | merge {s : Interface} {l : List Interface} {reg : Registry} :
      Reached s → (∀ t ∈ l, Reached t) →
      Reached (s.mergeSegments l reg).1

/-- Every point of the segment lies within the closed box
`[minX, maxX] × [minY, maxY] × [minZ, maxZ]` after the `uint32_t` cast.
This is the inclusive version of the spec's strict-interior invariant. -/
def closedInBbox (s : Interface) : Prop :=
  ∀ q ∈ s.segment,
    s.bbox.minX ≤ toU32 q.x ∧ toU32 q.x ≤ s.bbox.maxX ∧
    s.bbox.minY ≤ toU32 q.y ∧ toU32 q.y ≤ s.bbox.maxY ∧
    s.bbox.minZ ≤ toU32 q.z ∧ toU32 q.z ≤ s.bbox.maxZ

/-! ### Helper lemmas -/

theorem toU32_le (v : Int) : toU32 v ≤ UINT32_MAX := by
  have h1 : v % 4294967296 < 4294967296 := Int.emod_lt_of_pos v (by norm_num)
  have h0 : 0 ≤ v % 4294967296 := Int.emod_nonneg v (by norm_num)
  unfold toU32 UINT32_MAX
  omega

theorem toU32_eq_toNat (v : Int) (h0 : 0 ≤ v) (h1 : v < 4294967296) :
    toU32 v = v.toNat := by
  unfold toU32
  rw [Int.emod_eq_of_lt h0 h1]

theorem offset_inj {p d c : Point3D} (h : p.offset d = p.offset c) : d = c := by
  cases p; cases d; cases c
  simp only [Point3D.offset, Point3D.mk.injEq] at h ⊢
  omega

theorem mem_addPoint_iff (s : Interface) (p q : Point3D) :
    q ∈ (s.addPoint p).segment ↔
      q ∈ s.segment ∨ ∃ d ∈ dilationOffsets, p.offset d = q := by
  simp [Interface.addPoint, List.mem_map]

/-! ### Claim theorems -/

/-- Claim C1: after `addPoint p` the point set is the prior set united with
exactly the 19 dilation offsets of `p`; `contains` then holds for `p` and for
each of the 18 neighbor offsets, and fails for each of the 8 corner offsets
unless that point was otherwise added. -/
theorem addPoint_dilation (s : Interface) (p : Point3D) :
    (s.addPoint p).segment =
      s.segment ∪ (dilationOffsets.map fun d => p.offset d).toFinset ∧
    (s.addPoint p).contains p = true ∧
    (∀ d ∈ dilationOffsets.tail, (s.addPoint p).contains (p.offset d) = true) ∧
    (∀ c ∈ cornerOffsets, p.offset c ∉ s.segment →
      (s.addPoint p).contains (p.offset c) = false) := by
  refine ⟨rfl, ?_, ?_, ?_⟩
  · simp only [Interface.contains, decide_eq_true_iff, mem_addPoint_iff]
    exact Or.inr ⟨⟨0, 0, 0⟩, by decide, by cases p; simp [Point3D.offset]⟩
  · intro d hd
    simp only [Interface.contains, decide_eq_true_iff, mem_addPoint_iff]
    exact Or.inr ⟨d, List.mem_of_mem_tail hd, rfl⟩
  · intro c hc hn
    have hcn : c ∉ dilationOffsets := by fin_cases hc <;> decide
    simp only [Interface.contains, decide_eq_false_iff_not, mem_addPoint_iff]
    rintro (h | ⟨d, hd, he⟩)
    · exact hn h
    · exact hcn (offset_inj he ▸ hd)

/-- Witness for C1 at the spec's concrete scenario `addPoint (5,5,5)`. -/
theorem addPoint_dilation_w :
    ((Interface.new 1).addPoint ⟨5, 5, 5⟩).contains
      (Point3D.offset ⟨5, 5, 5⟩ ⟨1, 0, 0⟩) = true ∧
    ((Interface.new 1).addPoint ⟨5, 5, 5⟩).contains
      (Point3D.offset ⟨5, 5, 5⟩ ⟨1, 1, 1⟩) = false :=
  ⟨(addPoint_dilation (Interface.new 1) ⟨5, 5, 5⟩).2.2.1 ⟨1, 0, 0⟩ (by decide),
   (addPoint_dilation (Interface.new 1) ⟨5, 5, 5⟩).2.2.2 ⟨1, 1, 1⟩ (by decide)
     (by decide)⟩

/-- Claim C5: `mergeBbox` is the componentwise min/max combine; it is
commutative and associative, and the sentinel-empty box is an identity on
boxes whose min components are representable `uint32_t` values. -/
theorem mergeBbox_comm_assoc_ident :
    (∀ a b : BoundingBox, mergeBbox a b = mergeBbox b a) ∧
    (∀ a b c : BoundingBox,
      mergeBbox (mergeBbox a b) c = mergeBbox a (mergeBbox b c)) ∧
    (∀ b : BoundingBox, b.minX ≤ UINT32_MAX → b.minY ≤ UINT32_MAX →
      b.minZ ≤ UINT32_MAX →
      mergeBbox b emptyBbox = b ∧ mergeBbox emptyBbox b = b) := by
  refine ⟨?_, ?_, ?_⟩
  · intro a b
    simp only [mergeBbox, BoundingBox.mk.injEq]
    omega
  · intro a b c
    simp only [mergeBbox, BoundingBox.mk.injEq]
    omega
  · intro b h1 h2 h3
    obtain ⟨m1, m2, m3, m4, m5, m6⟩ := b
    simp only [mergeBbox, emptyBbox, UINT32_MAX, BoundingBox.mk.injEq] at *
    omega

/-- Witness for C5's identity clause at a concrete real box. -/
theorem mergeBbox_comm_assoc_ident_w :
    mergeBbox ⟨4, 4, 4, 6, 6, 6⟩ emptyBbox = ⟨4, 4, 4, 6, 6, 6⟩ ∧
    mergeBbox emptyBbox ⟨4, 4, 4, 6, 6, 6⟩ = ⟨4, 4, 4, 6, 6, 6⟩ :=
  mergeBbox_comm_assoc_ident.2.2 ⟨4, 4, 4, 6, 6, 6⟩ (by decide) (by decide)
    (by decide)

/-- Claim C6: merging an empty list returns false and mutates nothing:
the segment, its box and the registry are returned unchanged. -/
theorem mergeSegments_nil (s : Interface) (reg : Registry) :
    s.mergeSegments [] reg = (s, reg, false) := rfl

/-- Claim C8: on a freshly constructed segment (sentinel box),
`withinBbox` rejects every point. -/
theorem new_withinBbox_false (n : Int) (p : Point3D) :
    (Interface.new n).withinBbox p = false := by
  have hx := toU32_le p.x
  simp only [Interface.withinBbox, Interface.new, emptyBbox, UINT32_MAX,
    decide_eq_false_iff_not] at *
  omega

theorem regLookup_cons (kv : Int × Nat) (rest : Registry) (j : Int) :
    regLookup (kv :: rest) j =
      if kv.1 = j then some kv.2 else regLookup rest j := by
  by_cases h : kv.1 = j
  · simp [regLookup, List.find?_cons_of_pos, h]
  · simp [regLookup, List.find?_cons_of_neg, h]

theorem regErase_cons (kv : Int × Nat) (rest : Registry) (i : Int) :
    regErase (kv :: rest) i =
      if kv.1 = i then regErase rest i else kv :: regErase rest i := by
  by_cases h : kv.1 = i <;> simp [regErase, List.filter_cons, h]

theorem regLookup_erase (reg : Registry) (i j : Int) :
    regLookup (regErase reg i) j = if j = i then none else regLookup reg j := by
  induction reg with
  | nil => simp [regErase, regLookup]
  | cons kv rest ih =>
    rw [regErase_cons]
    by_cases hk : kv.1 = i
    · rw [if_pos hk, ih, regLookup_cons]
      by_cases hj : j = i
      · simp [hj]
      · have : kv.1 ≠ j := fun he => hj (by rw [← he, hk])
        simp [hj, this]
    · rw [if_neg hk, regLookup_cons, regLookup_cons, ih]
      by_cases hj : j = i
      · have : kv.1 ≠ j := fun he => hk (by rw [he, hj])
        simp [hj, this, hk]
      · simp [hj]

theorem mergeLoop_self_all (l : List Interface) :
    ∀ (s : Interface) (reg : Registry), (∀ t ∈ l, t.id = s.id) →
      mergeLoop s reg l = (s, reg) := by
  induction l with
  | nil => intro s reg _; rfl
  | cons a as ih =>
    intro s reg h
    have ha : a.id = s.id := h a (List.mem_cons_self a as)
    simp only [mergeLoop, if_pos ha]
    exact ih s reg fun t ht => h t (List.mem_cons_of_mem a ht)

theorem mergeLoop_segment_mem (l : List Interface) :
    ∀ (s : Interface) (reg : Registry) (q : Point3D),
      (∀ t ∈ l, t.id ≠ s.id) →
      (q ∈ (mergeLoop s reg l).1.segment ↔
        q ∈ s.segment ∨ ∃ t ∈ l, q ∈ t.segment) := by
  induction l with
  | nil => intro s reg q _; simp [mergeLoop]
  | cons a as ih =>
    intro s reg q h
    have ha : a.id ≠ s.id := h a (List.mem_cons_self a as)
    simp only [mergeLoop, if_neg ha]
    rw [ih (s.absorb a) (regErase reg a.id) q
      fun t ht => h t (List.mem_cons_of_mem a ht)]
    simp only [Interface.absorb, Finset.mem_union, List.mem_cons,
      exists_eq_or_imp]
    tauto

theorem mergeLoop_bbox (l : List Interface) :
    ∀ (s : Interface) (reg : Registry), (∀ t ∈ l, t.id ≠ s.id) →
      (mergeLoop s reg l).1.bbox =
        l.foldl (fun b t => mergeBbox b t.bbox) s.bbox := by
  induction l with
  | nil => intro s reg _; rfl
  | cons a as ih =>
    intro s reg h
    have ha : a.id ≠ s.id := h a (List.mem_cons_self a as)
    simp only [mergeLoop, if_neg ha, List.foldl_cons]
    exact ih (s.absorb a) (regErase reg a.id)
      fun t ht => h t (List.mem_cons_of_mem a ht)

theorem mergeLoop_reg_none (l : List Interface) :
    ∀ (s : Interface) (reg : Registry) (i : Int),
      regLookup reg i = none →
      regLookup (mergeLoop s reg l).2 i = none := by
  induction l with
  | nil => intro s reg i h; exact h
  | cons a as ih =>
    intro s reg i h
    simp only [mergeLoop]
    by_cases ha : a.id = s.id
    · rw [if_pos ha]; exact ih s reg i h
    · rw [if_neg ha]
      refine ih (s.absorb a) (regErase reg a.id) i ?_
      rw [regLookup_erase]
      by_cases hi : i = a.id
      · simp [hi]
      · simp [hi, h]

theorem mergeLoop_reg_absorbed (l : List Interface) :
    ∀ (s : Interface) (reg : Registry), (∀ t ∈ l, t.id ≠ s.id) →
      ∀ t ∈ l, regLookup (mergeLoop s reg l).2 t.id = none := by
  induction l with
  | nil => intro s reg _ t ht; exact absurd ht (List.not_mem_nil t)
  | cons a as ih =>
    intro s reg h t ht
    have ha : a.id ≠ s.id := h a (List.mem_cons_self a as)
    simp only [mergeLoop, if_neg ha]
    rcases List.mem_cons.mp ht with he | hr
    · subst he
      refine mergeLoop_reg_none as (s.absorb t) (regErase reg t.id) t.id ?_
      rw [regLookup_erase]
      simp
    · exact ih (s.absorb a) (regErase reg a.id)
        (fun u hu => h u (List.mem_cons_of_mem a hu)) t hr

theorem mergeLoop_reg_other (l : List Interface) :
    ∀ (s : Interface) (reg : Registry) (i : Int), (∀ t ∈ l, t.id ≠ i) →
      regLookup (mergeLoop s reg l).2 i = regLookup reg i := by
  induction l with
  | nil => intro s reg i _; rfl
  | cons a as ih =>
    intro s reg i h
    have ha : a.id ≠ i := h a (List.mem_cons_self a as)
    simp only [mergeLoop]
    by_cases hs : a.id = s.id
    · rw [if_pos hs]
      exact ih s reg i fun t ht => h t (List.mem_cons_of_mem a ht)
    · rw [if_neg hs,
        ih (s.absorb a) (regErase reg a.id) i
          fun t ht => h t (List.mem_cons_of_mem a ht),
        regLookup_erase]
      have : i ≠ a.id := fun he => ha he.symm
      simp [this]

theorem mergeLoop_filter_self (l : List Interface) :
    ∀ (s : Interface) (reg : Registry),
      mergeLoop s reg l =
        mergeLoop s reg (l.filter fun t => decide (t.id ≠ s.id)) := by
  induction l with
  | nil => intro s reg; rfl
  | cons a as ih =>
    intro s reg
    rw [List.filter_cons]
    by_cases ha : a.id = s.id
    · have hd : (decide (a.id ≠ s.id)) = false := by simp [ha]
      rw [hd]
      simp only [Bool.false_eq_true, if_false]
      simp only [mergeLoop, if_pos ha]
      exact ih s reg
    · have hd : (decide (a.id ≠ s.id)) = true := by simp [ha]
      rw [hd]
      simp only [if_true]
      simp only [mergeLoop, if_neg ha]
      exact ih (s.absorb a) (regErase reg a.id)

/-- Claim C7: entries whose id equals the target's id are skipped entirely
(the loop behaves as if they were filtered out of the list), and a
non-empty list consisting only of self-references returns true with no
change to the segment, its box, or the registry. -/
theorem mergeSegments_self_skip :
    (∀ (s : Interface) (reg : Registry) (l : List Interface),
      mergeLoop s reg l =
        mergeLoop s reg (l.filter fun t => decide (t.id ≠ s.id))) ∧
    (∀ (s : Interface) (reg : Registry) (l : List Interface), l ≠ [] →
      (∀ t ∈ l, t.id = s.id) → s.mergeSegments l reg = (s, reg, true)) := by
  constructor
  · intro s reg l
    exact mergeLoop_filter_self l s reg
  · intro s reg l hne h
    cases l with
    | nil => exact absurd rfl hne
    | cons a as =>
      simp [Interface.mergeSegments, mergeLoop_self_all (a :: as) s reg h]

/-- Witness for C7: merging `[this]` alone returns true and changes
nothing. -/
theorem mergeSegments_self_skip_w :
    (Interface.new 1).mergeSegments [Interface.new 1] [(1, 0)] =
      (Interface.new 1, [(1, 0)], true) :=
  mergeSegments_self_skip.2 (Interface.new 1) [(1, 0)] [Interface.new 1]
    (List.cons_ne_nil _ _) (by decide)

/-- Counterexample to C2 as stated: it quantifies over every sequence with
ids distinct from the target's, which includes the empty sequence, but an
empty merge list makes `mergeSegments` return false, not true. -/
theorem mergeSegments_union_cex :
    ¬ ((Interface.new 1).mergeSegments ([] : List Interface)
        ([] : Registry)).2.2 = true := by decide

/-- Claim C2 (amended: the input sequence must be non-empty): after the
merge, the target's point set is the union of its prior points with all
listed segments' points, its box is the `mergeBbox` accumulation of all
their boxes, every absorbed id is gone from the registry, the entry for the
target's id is untouched, and the call returns true. -/
theorem mergeSegments_union_spec (s : Interface) (l : List Interface)
    (reg : Registry) (hne : l ≠ []) (hids : ∀ t ∈ l, t.id ≠ s.id) :
    (∀ q, q ∈ (s.mergeSegments l reg).1.segment ↔
        q ∈ s.segment ∨ ∃ t ∈ l, q ∈ t.segment) ∧
    (s.mergeSegments l reg).1.bbox =
      l.foldl (fun b t => mergeBbox b t.bbox) s.bbox ∧
    (∀ t ∈ l, regLookup (s.mergeSegments l reg).2.1 t.id = none) ∧
    regLookup (s.mergeSegments l reg).2.1 s.id = regLookup reg s.id ∧
    (s.mergeSegments l reg).2.2 = true := by
  cases l with
  | nil => exact absurd rfl hne
  | cons a as =>
    simp only [Interface.mergeSegments, List.isEmpty_cons, Bool.false_eq_true,
      if_false]
    exact ⟨fun q => mergeLoop_segment_mem (a :: as) s reg q hids,
      mergeLoop_bbox (a :: as) s reg hids,
      mergeLoop_reg_absorbed (a :: as) s reg hids,
      mergeLoop_reg_other (a :: as) s reg s.id hids, trivial⟩

/-- Witness for C2's amended theorem on a concrete two-segment registry. -/
theorem mergeSegments_union_spec_w :
    (∀ q, q ∈ ((Interface.new 1).mergeSegments [Interface.new 2]
        [(2, 7)]).1.segment ↔
      q ∈ (Interface.new 1).segment ∨
        ∃ t ∈ [Interface.new 2], q ∈ t.segment) ∧
    ((Interface.new 1).mergeSegments [Interface.new 2] [(2, 7)]).1.bbox =
      [Interface.new 2].foldl (fun b t => mergeBbox b t.bbox)
        (Interface.new 1).bbox ∧
    (∀ t ∈ [Interface.new 2],
      regLookup ((Interface.new 1).mergeSegments [Interface.new 2]
        [(2, 7)]).2.1 t.id = none) ∧
    regLookup ((Interface.new 1).mergeSegments [Interface.new 2]
        [(2, 7)]).2.1 (Interface.new 1).id =
      regLookup [(2, 7)] (Interface.new 1).id ∧
    ((Interface.new 1).mergeSegments [Interface.new 2] [(2, 7)]).2.2 = true :=
  mergeSegments_union_spec (Interface.new 1) [Interface.new 2] [(2, 7)]
    (List.cons_ne_nil _ _) (by decide)

theorem mergeLoop_mono (l : List Interface) :
    ∀ (s : Interface) (reg : Registry),
      s.segment ⊆ (mergeLoop s reg l).1.segment ∧
      (mergeLoop s reg l).1.bbox.minX ≤ s.bbox.minX ∧
      (mergeLoop s reg l).1.bbox.minY ≤ s.bbox.minY ∧
      (mergeLoop s reg l).1.bbox.minZ ≤ s.bbox.minZ ∧
      s.bbox.maxX ≤ (mergeLoop s reg l).1.bbox.maxX ∧
      s.bbox.maxY ≤ (mergeLoop s reg l).1.bbox.maxY ∧
      s.bbox.maxZ ≤ (mergeLoop s reg l).1.bbox.maxZ ∧
      (mergeLoop s reg l).1.id = s.id := by
  induction l with
  | nil =>
    intro s reg
    exact ⟨Finset.Subset.refl _, le_refl _, le_refl _, le_refl _,
      le_refl _, le_refl _, le_refl _, rfl⟩
  | cons a as ih =>
    intro s reg
    simp only [mergeLoop]
    by_cases ha : a.id = s.id
    · rw [if_pos ha]; exact ih s reg
    · rw [if_neg ha]
      obtain ⟨h1, h2, h3, h4, h5, h6, h7, h8⟩ :=
        ih (s.absorb a) (regErase reg a.id)
      refine ⟨Finset.Subset.trans Finset.subset_union_left h1,
        ?_, ?_, ?_, ?_, ?_, ?_, h8⟩ <;>
      · simp only [Interface.absorb, mergeBbox] at *
        omega

/-- Claim C9: every operation only grows the segment: `addPoint` and
`mergeSegments` keep the prior point set as a subset of the new one, never
increase a bbox min component, never decrease a bbox max component, and
never modify the segment's id. -/
theorem monotone_growth :
    (∀ (s : Interface) (p : Point3D),
      s.segment ⊆ (s.addPoint p).segment ∧
      (s.addPoint p).bbox.minX ≤ s.bbox.minX ∧
      (s.addPoint p).bbox.minY ≤ s.bbox.minY ∧
      (s.addPoint p).bbox.minZ ≤ s.bbox.minZ ∧
      s.bbox.maxX ≤ (s.addPoint p).bbox.maxX ∧
      s.bbox.maxY ≤ (s.addPoint p).bbox.maxY ∧
      s.bbox.maxZ ≤ (s.addPoint p).bbox.maxZ ∧
      (s.addPoint p).id = s.id) ∧
    (∀ (s : Interface) (l : List Interface) (reg : Registry),
      s.segment ⊆ (s.mergeSegments l reg).1.segment ∧
      (s.mergeSegments l reg).1.bbox.minX ≤ s.bbox.minX ∧
      (s.mergeSegments l reg).1.bbox.minY ≤ s.bbox.minY ∧
      (s.mergeSegments l reg).1.bbox.minZ ≤ s.bbox.minZ ∧
      s.bbox.maxX ≤ (s.mergeSegments l reg).1.bbox.maxX ∧
      s.bbox.maxY ≤ (s.mergeSegments l reg).1.bbox.maxY ∧
      s.bbox.maxZ ≤ (s.mergeSegments l reg).1.bbox.maxZ ∧
      (s.mergeSegments l reg).1.id = s.id) := by
  constructor
  · intro s p
    refine ⟨Finset.subset_union_left, ?_, ?_, ?_, ?_, ?_, ?_, rfl⟩ <;>
    · simp only [Interface.addPoint, mergeBbox]
      omega
  · intro s l reg
    cases l with
    | nil =>
      exact ⟨Finset.Subset.refl _, le_refl _, le_refl _, le_refl _,
        le_refl _, le_refl _, le_refl _, rfl⟩
    | cons a as =>
      simp only [Interface.mergeSegments, List.isEmpty_cons,
        Bool.false_eq_true, if_false]
      exact mergeLoop_mono (a :: as) s reg

theorem heapLoop_frame (l : List Nat) :
    ∀ (a : Nat) (H : Heap) (reg : Registry) (c : Nat), c ≠ a →
      (heapMergeLoop a H reg l).1 c = H c := by
  induction l with
  | nil => intro a H reg c _; rfl
  | cons b rest ih =>
    intro a H reg c hc
    simp only [heapMergeLoop]
    by_cases hb : (H b).id = (H a).id
    · rw [if_pos hb]; exact ih a H reg c hc
    · rw [if_neg hb, ih a _ _ c hc]
      simp [heapUpdate, hc]

theorem heapLoop_reg_none (l : List Nat) :
    ∀ (a : Nat) (H : Heap) (reg : Registry) (i : Int),
      regLookup reg i = none →
      regLookup (heapMergeLoop a H reg l).2 i = none := by
  induction l with
  | nil => intro a H reg i h; exact h
  | cons b rest ih =>
    intro a H reg i h
    simp only [heapMergeLoop]
    by_cases hb : (H b).id = (H a).id
    · rw [if_pos hb]; exact ih a H reg i h
    · rw [if_neg hb]
      refine ih a _ _ i ?_
      rw [regLookup_erase]
      by_cases hi : i = (H b).id
      · simp [hi]
      · simp [hi, h]

theorem heapLoop_absorbed (l : List Nat) :
    ∀ (a : Nat) (H : Heap) (reg : Registry) (b : Nat),
      b ∈ l → (H b).id ≠ (H a).id →
      (heapMergeLoop a H reg l).1 b = H b ∧
      regLookup (heapMergeLoop a H reg l).2 (H b).id = none := by
  induction l with
  | nil => intro a H reg b hb _; exact absurd hb (List.not_mem_nil b)
  | cons c rest ih =>
    intro a H reg b hb hid
    have hba : b ≠ a := fun he => hid (he ▸ rfl)
    by_cases hcb : c = b
    · subst hcb
      simp only [heapMergeLoop, if_neg hid]
      constructor
      · rw [heapLoop_frame rest a _ _ c hba]
        simp [heapUpdate, hba]
      · refine heapLoop_reg_none rest a _ _ (H c).id ?_
        rw [regLookup_erase]
        simp
    · have hbr : b ∈ rest := by
        rcases List.mem_cons.mp hb with he | hr
        · exact absurd he.symm hcb
        · exact hr
      simp only [heapMergeLoop]
      by_cases hc : (H c).id = (H a).id
      · rw [if_pos hc]; exact ih a H reg b hbr hid
      · rw [if_neg hc]
        have h2b : heapUpdate H a ((H a).absorb (H c)) b = H b := by
          simp [heapUpdate, hba]
        have h2a : (heapUpdate H a ((H a).absorb (H c)) a).id = (H a).id := by
          simp [heapUpdate, Interface.absorb]
        have h := ih a (heapUpdate H a ((H a).absorb (H c)))
          (regErase reg (H c).id) b hbr (by rw [h2b, h2a]; exact hid)
        rw [h2b] at h
        exact h

/-- Claim C10: absorbed segments are read-only sources: in the heap model of
`mergeSegments` (addresses behind `shared_ptr`s), a listed segment whose id
differs from the target's is untouched by the call; the only effect on it is
that the registry loses the entry for its id. -/
theorem absorbed_readonly (H : Heap) (a : Nat) (l : List Nat)
    (reg : Registry) (b : Nat) (hb : b ∈ l)
    (hid : (H b).id ≠ (H a).id) :
    (heapMergeSegments a H l reg).1 b = H b ∧
    regLookup (heapMergeSegments a H l reg).2.1 (H b).id = none := by
  cases l with
  | nil => exact absurd hb (List.not_mem_nil b)
  | cons c rest =>
    simp only [heapMergeSegments, List.isEmpty_cons, Bool.false_eq_true,
      if_false]
    exact heapLoop_absorbed (c :: rest) a H reg b hb hid

/-- Witness for C10: a two-object heap where address 1 (id 2, registered at
entry `(2, 1)`) is absorbed into address 0 (id 1). -/
theorem absorbed_readonly_w :
    (heapMergeSegments 0
        (fun n => if n = 0 then Interface.new 1 else Interface.new 2)
        [1] [(2, 1)]).1 1 =
      (fun n : Nat =>
        if n = 0 then Interface.new 1 else Interface.new 2) 1 ∧
    regLookup (heapMergeSegments 0
        (fun n => if n = 0 then Interface.new 1 else Interface.new 2)
        [1] [(2, 1)]).2.1
      ((fun n : Nat =>
        if n = 0 then Interface.new 1 else Interface.new 2) 1).id = none :=
  absorbed_readonly _ 0 [1] [(2, 1)] 1 (by decide) (by decide)

theorem addPoints_bbox_loop (ps : List Point3D) :
    ∀ (s : Interface),
      (ps.foldl Interface.addPoint s).bbox =
        ⟨(ps.map fun p => toU32 (p.x - 1)).foldl
            (fun acc v => min v acc) s.bbox.minX,
         (ps.map fun p => toU32 (p.y - 1)).foldl
            (fun acc v => min v acc) s.bbox.minY,
         (ps.map fun p => toU32 (p.z - 1)).foldl
            (fun acc v => min v acc) s.bbox.minZ,
         (ps.map fun p => toU32 (p.x + 1)).foldl
            (fun acc v => max v acc) s.bbox.maxX,
         (ps.map fun p => toU32 (p.y + 1)).foldl
            (fun acc v => max v acc) s.bbox.maxY,
         (ps.map fun p => toU32 (p.z + 1)).foldl
            (fun acc v => max v acc) s.bbox.maxZ⟩ := by
  induction ps with
  | nil => intro s; rfl
  | cons p ps ih =>
    intro s
    simp only [List.foldl_cons, List.map_cons]
    rw [ih (s.addPoint p)]
    rfl

theorem foldl_min_flip (l : List Nat) :
    ∀ i : Nat, l.foldl (fun acc v => min v acc) i = l.foldl min i := by
  induction l with
  | nil => intro i; rfl
  | cons a l ih =>
    intro i
    rw [List.foldl_cons, List.foldl_cons, ih, Nat.min_comm]

theorem foldl_max_flip (l : List Nat) :
    ∀ i : Nat, l.foldl (fun acc v => max v acc) i = l.foldl max i := by
  induction l with
  | nil => intro i; rfl
  | cons a l ih =>
    intro i
    rw [List.foldl_cons, List.foldl_cons, ih, Nat.max_comm]

/-- Claim C4: after any non-empty sequence of `addPoint` calls on a fresh
segment, each bbox min component is the minimum over the points of the
`uint32_t` cast of `coordinate - 1`, and each max component the maximum of
the cast of `coordinate + 1` (the conversion is applied per point, exactly
as in the code); in particular `addPoint (5,5,5)` yields `(4,4,4,6,6,6)`. -/
theorem addPoint_fold_bbox :
    (∀ (n : Int) (ps : List Point3D), ps ≠ [] →
      (ps.foldl Interface.addPoint (Interface.new n)).bbox =
        ⟨(ps.map fun p => toU32 (p.x - 1)).foldl min UINT32_MAX,
         (ps.map fun p => toU32 (p.y - 1)).foldl min UINT32_MAX,
         (ps.map fun p => toU32 (p.z - 1)).foldl min UINT32_MAX,
         (ps.map fun p => toU32 (p.x + 1)).foldl max 0,
         (ps.map fun p => toU32 (p.y + 1)).foldl max 0,
         (ps.map fun p => toU32 (p.z + 1)).foldl max 0⟩) ∧
    ((Interface.new 1).addPoint ⟨5, 5, 5⟩).bbox = ⟨4, 4, 4, 6, 6, 6⟩ := by
  constructor
  · intro n ps _
    rw [addPoints_bbox_loop ps (Interface.new n)]
    simp only [Interface.new, emptyBbox, foldl_min_flip, foldl_max_flip]
  · decide

/-- Witness for C4 at the spec's concrete scenario. -/
theorem addPoint_fold_bbox_w :
    (([⟨5, 5, 5⟩] : List Point3D).foldl Interface.addPoint
        (Interface.new 1)).bbox =
      ⟨(([⟨5, 5, 5⟩] : List Point3D).map fun p => toU32 (p.x - 1)).foldl
          min UINT32_MAX,
       (([⟨5, 5, 5⟩] : List Point3D).map fun p => toU32 (p.y - 1)).foldl
          min UINT32_MAX,
       (([⟨5, 5, 5⟩] : List Point3D).map fun p => toU32 (p.z - 1)).foldl
          min UINT32_MAX,
       (([⟨5, 5, 5⟩] : List Point3D).map fun p => toU32 (p.x + 1)).foldl
          max 0,
       (([⟨5, 5, 5⟩] : List Point3D).map fun p => toU32 (p.y + 1)).foldl
          max 0,
       (([⟨5, 5, 5⟩] : List Point3D).map fun p => toU32 (p.z + 1)).foldl
          max 0⟩ :=
  addPoint_fold_bbox.1 1 [⟨5, 5, 5⟩] (List.cons_ne_nil _ _)

theorem offsets_small :
    ∀ d ∈ dilationOffsets,
      -1 ≤ d.x ∧ d.x ≤ 1 ∧ -1 ≤ d.y ∧ d.y ≤ 1 ∧ -1 ≤ d.z ∧ d.z ≤ 1 := by
  decide

theorem addPoint_closed {s : Interface} {p : Point3D}
    (hs : closedInBbox s) (hg : GoodPt p) : closedInBbox (s.addPoint p) := by
  obtain ⟨g1, g2, g3, g4, g5, g6⟩ := hg
  intro q hq
  rcases (mem_addPoint_iff s p q).mp hq with h | ⟨d, hd, he⟩
  · obtain ⟨b1, b2, b3, b4, b5, b6⟩ := hs q h
    simp only [Interface.addPoint, mergeBbox]
    omega
  · obtain ⟨d1, d2, d3, d4, d5, d6⟩ := offsets_small d hd
    have e1 : toU32 (p.x - 1) = (p.x - 1).toNat :=
      toU32_eq_toNat _ (by omega) (by omega)
    have e2 : toU32 (p.y - 1) = (p.y - 1).toNat :=
      toU32_eq_toNat _ (by omega) (by omega)
    have e3 : toU32 (p.z - 1) = (p.z - 1).toNat :=
      toU32_eq_toNat _ (by omega) (by omega)
    have e4 : toU32 (p.x + 1) = (p.x + 1).toNat :=
      toU32_eq_toNat _ (by omega) (by omega)
    have e5 : toU32 (p.y + 1) = (p.y + 1).toNat :=
      toU32_eq_toNat _ (by omega) (by omega)
    have e6 : toU32 (p.z + 1) = (p.z + 1).toNat :=
      toU32_eq_toNat _ (by omega) (by omega)
    have e7 : toU32 (p.x + d.x) = (p.x + d.x).toNat :=
      toU32_eq_toNat _ (by omega) (by omega)
    have e8 : toU32 (p.y + d.y) = (p.y + d.y).toNat :=
      toU32_eq_toNat _ (by omega) (by omega)
    have e9 : toU32 (p.z + d.z) = (p.z + d.z).toNat :=
      toU32_eq_toNat _ (by omega) (by omega)
    subst he
    simp only [Interface.addPoint, mergeBbox, pointBbox, Point3D.offset,
      e1, e2, e3, e4, e5, e6, e7, e8, e9]
    omega

theorem mergeLoop_closed (l : List Interface) :
    ∀ (s : Interface) (reg : Registry), closedInBbox s →
      (∀ t ∈ l, closedInBbox t) →
      closedInBbox (mergeLoop s reg l).1 := by
  induction l with
  | nil => intro s reg hs _; exact hs
  | cons a as ih =>
    intro s reg hs hl
    simp only [mergeLoop]
    by_cases ha : a.id = s.id
    · rw [if_pos ha]
      exact ih s reg hs fun t ht => hl t (List.mem_cons_of_mem a ht)
    · rw [if_neg ha]
      refine ih (s.absorb a) (regErase reg a.id) ?_
        fun t ht => hl t (List.mem_cons_of_mem a ht)
      intro q hq
      rcases Finset.mem_union.mp hq with h | h
      · obtain ⟨b1, b2, b3, b4, b5, b6⟩ := hs q h
        simp only [Interface.absorb, mergeBbox]
        omega
      · obtain ⟨b1, b2, b3, b4, b5, b6⟩ :=
          hl a (List.mem_cons_self a as) q h
        simp only [Interface.absorb, mergeBbox]
        omega

/-- Counterexample to C3 as stated: one `addPoint (5,5,5)` on a fresh
segment (a reachable state with a non-empty box) puts the dilated point
`(4,5,5)` in the point set, yet `withinBbox` rejects it, because the box is
only one cell beyond the *directly added* point and the dilation reaches
that boundary, where the strict comparison fails. -/
theorem reached_closed_bbox_cex :
    ((Interface.new 1).addPoint ⟨5, 5, 5⟩).contains ⟨4, 5, 5⟩ = true ∧
    ((Interface.new 1).addPoint ⟨5, 5, 5⟩).withinBbox ⟨4, 5, 5⟩ = false ∧
    ((Interface.new 1).addPoint ⟨5, 5, 5⟩).bbox ≠ emptyBbox ∧
    ((Interface.new 2).addPoint ⟨0, 0, 0⟩).contains ⟨0, 0, 0⟩ = true ∧
    decide (((Interface.new 2).addPoint ⟨0, 0, 0⟩).bbox.minX ≤
      toU32 (0 : Int)) = false := by decide

/-- Claim C3 (amended: with wrap-free coordinates, and with the closed box
in place of the strict interior): for every segment reachable by `addPoint`
on coordinates in `[1, 2^32 - 2]` and by `mergeSegments`, every point of
the point set lies within the closed bounding box componentwise. -/
theorem reached_closed_bbox (s : Interface) (h : Reached s) :
    closedInBbox s := by
  induction h with
  | new id =>
    intro q hq
    simp [Interface.new] at hq
  | add hr hg ih => exact addPoint_closed ih hg
  | @merge s' l reg hr hl ihs ihl =>
    cases l with
    | nil => exact ihs
    | cons a as =>
      simp only [Interface.mergeSegments, List.isEmpty_cons,
        Bool.false_eq_true, if_false]
      exact mergeLoop_closed (a :: as) s' reg ihs ihl

/-- Witness for C3's amended theorem: the dilated boundary point `(4,5,5)`
after `addPoint (5,5,5)` satisfies the closed-box bounds. -/
theorem reached_closed_bbox_w :
    ((Interface.new 1).addPoint ⟨5, 5, 5⟩).bbox.minX ≤
        toU32 (Point3D.mk 4 5 5).x ∧
      toU32 (Point3D.mk 4 5 5).x ≤
        ((Interface.new 1).addPoint ⟨5, 5, 5⟩).bbox.maxX ∧
    ((Interface.new 1).addPoint ⟨5, 5, 5⟩).bbox.minY ≤
        toU32 (Point3D.mk 4 5 5).y ∧
      toU32 (Point3D.mk 4 5 5).y ≤
        ((Interface.new 1).addPoint ⟨5, 5, 5⟩).bbox.maxY ∧
    ((Interface.new 1).addPoint ⟨5, 5, 5⟩).bbox.minZ ≤
        toU32 (Point3D.mk 4 5 5).z ∧
      toU32 (Point3D.mk 4 5 5).z ≤
        ((Interface.new 1).addPoint ⟨5, 5, 5⟩).bbox.maxZ :=
  reached_closed_bbox _ (Reached.add (Reached.new 1) (by decide))
    ⟨4, 5, 5⟩ (by decide)

end Packing
